import Mathlib

/-!
A shallow embedding of the `searchtoy` combinatorial search library
(modules `space.py`, `containers.py`, `evaluators.py`, `methods.py`,
`problem.py`) together with proofs about the embedded definitions.

Conventions of the embedding:
* states are an abstract type `σ` with decidable equality (Python states
  are hashable/equatable, and the library compares them by hash);
* numeric costs and heuristic values are modelled as `Int`;
* the Python `dict` used for graph deduplication is modelled as an
  association list with first-match lookup and in-place update;
* the lazily yielded solution stream is modelled with an explicit fuel
  argument: `fuel` pops of the frontier produce a finite trace prefix.
-/

namespace Searchtoy

/-- The `space.py` `Node`: a root node (`Node(state)`, with `parent = None`,
`operation = None` and a cost, `0` at every construction site in the
engine), or a child node created by `Generator.successors` with a parent
link, the incoming operation and a cumulative cost. -/
inductive Node (σ ω : Type) : Type where
  | root (state : σ) (cost : Int)
  | child (state : σ) (operation : ω) (cost : Int) (parent : Node σ ω)
deriving DecidableEq

namespace Node

variable {σ ω : Type}

/-- The `Node.state`. -/
def state : Node σ ω → σ
  | root s _ => s
  | child s _ _ _ => s

/-- The `Node.cost`. -/
def cost : Node σ ω → Int
  | root _ c => c
  | child _ _ c _ => c

/-- The `Node.parent` (`None` on root nodes). -/
def parent : Node σ ω → Option (Node σ ω)
  | root _ _ => none
  | child _ _ _ p => some p

/-- The `Node.operation` (`None` on root nodes). -/
def operation : Node σ ω → Option ω
  | root _ _ => none
  | child _ op _ _ => some op

/-- The state at the far end of the parent chain. -/
def rootState : Node σ ω → σ
  | root s _ => s
  | child _ _ _ p => p.rootState

/-- The `Path.__init__` state collection: the loop walks parent links
appending each node's state, appends the root state, and reverses; the
result is the states from the root to this node in forward order. -/
def pathStates : Node σ ω → List σ
  | root s _ => [s]
  | child s _ _ p => p.pathStates ++ [s]

/-- The `Path.__init__` operation collection: the loop walks parent links
appending each non-root node's operation and reverses; the result is the
operations from the root to this node in forward order. -/
def pathOperations : Node σ ω → List ω
  | root _ _ => []
  | child _ op _ p => p.pathOperations ++ [op]

/-- The `Path.__iter__`: `zip(self.states, self.operations)`. -/
def pathPairs (n : Node σ ω) : List (σ × ω) :=
  n.pathStates.zip n.pathOperations

end Node

/- Auxiliary list lemmas used for the `Path` claims. -/

theorem zip_map_fst_of_length_succ {α β : Type} :
    ∀ (l₂ : List β) (l₁ : List α), l₁.length = l₂.length + 1 →
      (l₁.zip l₂).map Prod.fst = l₁.dropLast := by
  intro l₂
  induction l₂ with
  | nil =>
    intro l₁ h
    match l₁, h with
    | [x], _ => simp [List.zip]
  | cons y ys ih =>
    intro l₁ h
    match l₁, h with
    | x :: xs, h =>
      have hx : xs.length = ys.length + 1 := by
        simpa using h
      have hne : xs ≠ [] := by
        intro hnil
        rw [hnil] at hx
        simp at hx
      have := ih xs hx
      simp [List.zip_cons_cons, this, List.dropLast_cons_of_ne_nil hne]

theorem zip_map_snd_of_length_succ {α β : Type} :
    ∀ (l₂ : List β) (l₁ : List α), l₁.length = l₂.length + 1 →
      (l₁.zip l₂).map Prod.snd = l₂ := by
  intro l₂
  induction l₂ with
  | nil =>
    intro l₁ h
    match l₁, h with
    | [x], _ => simp [List.zip]
  | cons y ys ih =>
    intro l₁ h
    match l₁, h with
    | x :: xs, h =>
      have hx : xs.length = ys.length + 1 := by
        simpa using h
      have := ih xs hx
      simp [List.zip_cons_cons, this]

theorem pathStates_length_eq {σ ω : Type} (n : Node σ ω) :
    n.pathStates.length = n.pathOperations.length + 1 := by
  induction n with
  | root s c => simp [Node.pathStates, Node.pathOperations]
  | child s op c p ih =>
    simp [Node.pathStates, Node.pathOperations, ih]

theorem pathStates_getLast {σ ω : Type} (n : Node σ ω) :
    n.pathStates.getLast? = some n.state := by
  induction n with
  | root s c => simp [Node.pathStates, Node.state]
  | child s op c p ih =>
    simp [Node.pathStates, Node.state]

theorem pathStates_head {σ ω : Type} (n : Node σ ω) :
    n.pathStates.head? = some n.rootState := by
  induction n with
  | root s c => simp [Node.pathStates, Node.rootState]
  | child s op c p ih =>
    have hne : p.pathStates ≠ [] := by
      intro h
      have := pathStates_length_eq p
      rw [h] at this
      simp at this
    simp [Node.pathStates, Node.rootState, List.head?_append_of_ne_nil, hne, ih]

/-!
Python `containers.py`.  A Python `list` used as a stack grows at the right end
(`append` / `pop`), a `deque` used as a queue grows at the right end and
shrinks at the left (`append` / `popleft`).
-/

/-- The `Stack.remove = list.pop`: pop the last element. -/
def stackPop {α : Type} (c : List α) : Option (α × List α) :=
  match c.getLast? with
  | none => none
  | some x => some (x, c.dropLast)

/-- The `Stack.insert = list.append`. -/
def stackPush {α : Type} (c : List α) (x : α) : List α := c ++ [x]

/-- The `Stack.extend`: `super().extend(reversed(nodes))`. -/
def stackExtend {α : Type} (c ns : List α) : List α := c ++ ns.reverse

/-- The `Queue.insert = deque.append`. -/
def queuePush {α : Type} (c : List α) (x : α) : List α := c ++ [x]

/-- The `Queue.remove = deque.popleft`. -/
def queuePop {α : Type} (c : List α) : Option (α × List α) :=
  match c with
  | [] => none
  | x :: rest => some (x, rest)

/-- The `Queue` inherits `extend` from `deque`: append in given order. -/
def queueExtend {α : Type} (c ns : List α) : List α := c ++ ns

/-- The ascending key order `evaluate(a) <= evaluate(b)` used by
`nodes.sort(key=self.evaluator.evaluate)`. -/
def evLe {α : Type} (ev : α → Int) : α → α → Prop :=
  fun a b => ev a ≤ ev b

instance {α : Type} (ev : α → Int) : DecidableRel (evLe ev) :=
  fun a b => Int.decLe (ev a) (ev b)

instance {α : Type} (ev : α → Int) : IsTotal α (evLe ev) :=
  ⟨fun a b => Int.le_total (ev a) (ev b)⟩

instance {α : Type} (ev : α → Int) : IsTrans α (evLe ev) :=
  ⟨fun _ _ _ hab hbc => le_trans hab hbc⟩

/-- The `PrioritizedStack.extend`: `nodes.sort(key=evaluate)` (a stable
ascending sort, modelled with insertion sort) followed by
`Stack.extend` (reverse-push). -/
def prioritizedStackExtend {α : Type} (ev : α → Int) (c ns : List α) : List α :=
  stackExtend c (List.insertionSort (evLe ev) ns)

/-- The `PrioritizedQueue.extend`: sort ascending, then append in order. -/
def prioritizedQueueExtend {α : Type} (ev : α → Int) (c ns : List α) : List α :=
  queueExtend c (List.insertionSort (evLe ev) ns)

/-!
Python `PriorityQueue`.  The Python class stores 3-element entries
`(priority, count, node)` in a `heapq` min-heap; entries compare
lexicographically and the strictly increasing `count` makes comparison
never reach the node.  The heap is modelled by the multiset of its
entries, listed in insertion order; `heappop` (by the heap contract)
extracts the least entry in lexicographic `(priority, count)` order.
-/

/-- One heap entry: `(priority, count, node)`. -/
structure PQEntry (α : Type) where
  prio : Int
  seq : Nat
  node : α
deriving DecidableEq

/-- Strict lexicographic order on `(priority, count)`, the order in which
python compares the heap tuples (counts being distinct, the node is
never compared). -/
def entryLtB {α : Type} (a b : PQEntry α) : Bool :=
  decide (a.prio < b.prio) || (decide (a.prio = b.prio) && decide (a.seq < b.seq))

/-- The `PriorityQueue` state: the entries plus the running insertion
counter `self.count`. -/
structure PQ (α : Type) where
  entries : List (PQEntry α)
  count : Nat
deriving DecidableEq

/-- A freshly constructed `PriorityQueue` (`self.count = 0`, empty list). -/
def PQ.empty {α : Type} : PQ α := ⟨[], 0⟩

/-- The `PriorityQueue.insert`: `count += 1; heappush(self, (evaluate(node), count, node))`. -/
def PQ.insert {α : Type} (ev : α → Int) (q : PQ α) (n : α) : PQ α :=
  ⟨q.entries ++ [⟨ev n, q.count + 1, n⟩], q.count + 1⟩

/-- The `enumerate(nodes, start=k)`. -/
def enumFrom {α : Type} (k : Nat) : List α → List (Nat × α)
  | [] => []
  | x :: xs => (k, x) :: enumFrom (k + 1) xs

/-- The `PriorityQueue.extend`: entries `(evaluate(node), count, node)` for
`count` in `enumerate(nodes, start=self.count+1)`, appended and
re-heapified (a permutation, identity on the modelled multiset);
`self.count += len(nodes)`. -/
def PQ.extend {α : Type} (ev : α → Int) (q : PQ α) (ns : List α) : PQ α :=
  ⟨q.entries ++ (enumFrom (q.count + 1) ns).map (fun p => ⟨ev p.2, p.1, p.2⟩),
   q.count + ns.length⟩

/-- Select the least entry (lexicographic `(priority, count)`) of
`a :: l`, returning it together with the remaining entries in their
original relative order. -/
def selectMin {α : Type} (a : PQEntry α) : List (PQEntry α) → PQEntry α × List (PQEntry α)
  | [] => (a, [])
  | b :: rest =>
      if entryLtB b a then
        let r := selectMin b rest
        (r.1, a :: r.2)
      else
        let r := selectMin a rest
        (r.1, b :: r.2)

/-- The `PriorityQueue.remove`: `heappop(self)`, the least entry of the heap
in lexicographic `(priority, count)` order (the heap contract of
`heapq`). -/
def PQ.remove {α : Type} (q : PQ α) : Option (PQEntry α × PQ α) :=
  match q.entries with
  | [] => none
  | a :: rest =>
      let r := selectMin a rest
      some (r.1, ⟨r.2, q.count⟩)

/-- A client interaction with a `PriorityQueue`: the three mutating
operations of the `Container` interface. -/
inductive PQOp (α : Type) where
  | insert (n : α)
  | extend (ns : List α)
  | remove
deriving DecidableEq

/-- Run a sequence of `Container` operations against a fresh
`PriorityQueue` (removed entries are handed to the caller and dropped). -/
def PQ.applyOps {α : Type} (ev : α → Int) (ops : List (PQOp α)) : PQ α :=
  ops.foldl
    (fun q op =>
      match op with
      | PQOp.insert n => q.insert ev n
      | PQOp.extend ns => q.extend ev ns
      | PQOp.remove =>
          match q.remove with
          | none => q
          | some r => r.2)
    PQ.empty

/-!
Python `evaluators.py`.  The abstract `Evaluator.evaluate` body is
`return NotImplementedError` — it returns the exception *class object*
(it does not raise, and does not return a number).  `RandomEvaluator`
overrides only `order` (`random.shuffle`), not `evaluate`, so calls to
`RandomEvaluator.evaluate` hit the inherited abstract body.
-/

/-- The value returned by an evaluator's `evaluate`: either an integer
or the `NotImplementedError` class object returned by the abstract
`Evaluator.evaluate`. -/
inductive EvalValue where
  | intVal (n : Int)
  | notImplementedErrorClass
deriving DecidableEq

/-- The `Evaluator.evaluate(node)`: the abstract body `return NotImplementedError`. -/
def Evaluator.evaluate {α : Type} (_node : α) : EvalValue :=
  EvalValue.notImplementedErrorClass

/-- The `RandomEvaluator.evaluate(node)`: the class defines no `evaluate` of
its own, so the call resolves to the inherited `Evaluator.evaluate`. -/
def RandomEvaluator.evaluate {α : Type} (node : α) : EvalValue :=
  Evaluator.evaluate node

/-- Whether an evaluator call produced a (strictly) positive integer. -/
def EvalValue.isPositiveInt : EvalValue → Bool
  | EvalValue.intVal n => decide (0 < n)
  | EvalValue.notImplementedErrorClass => false

/-!
Python `methods.py`.  The three chained coroutines of `Method.search`
(`node_manager`, `successor_manager` / `conditional_successor_manager`,
`solution_manager`) are flattened into one explicit loop, exactly as the
send/yield protocol sequences them:

  while the container is non-empty:
    current := container.remove()
    solution := problem.is_solution(current.state)
    below := upper_bound is None or current.cost < upper_bound
    if solution: yield current;
                 if below: upper_bound := current.cost
                 if lower_bound is not None and current.cost <= lower_bound: stop
    expandable := (not solution) and below     -- what solution_manager sends
    if expandable:
      successors := generator.successors(current)        -- tree search
                  | the seen-map filter over them         -- graph search
      container.extend(successors)

Each loop iteration is recorded as a `StepInfo`; the generator's
`successors` function is invoked on the popped node exactly when the
recorded `expanded` flag is `true`.
-/

/-- A search problem: the start state and the goal predicate
(`problem.start`, `problem.is_solution`). -/
structure SearchProblem (σ : Type) where
  start : σ
  isSolution : σ → Bool

/-- A generator attached to the state class: its `graph` flag and its
`successors` function. -/
structure Generator (σ ω : Type) where
  graph : Bool
  successors : Node σ ω → List (Node σ ω)

/-- An abstract frontier container (`Container` interface): `insert`,
`extend`, `remove` over some carrier type. -/
structure Frontier (α : Type) : Type 1 where
  Carrier : Type
  init : Carrier
  insert : Carrier → α → Carrier
  extend : Carrier → List α → Carrier
  remove : Carrier → Option (α × Carrier)

/-- The concrete `Stack` frontier of blind `DepthFirst`. -/
def stackFrontier (α : Type) : Frontier α :=
  ⟨List α, [], stackPush, stackExtend, stackPop⟩

/-- The concrete `Queue` frontier of blind `BreadthFirst`. -/
def queueFrontier (α : Type) : Frontier α :=
  ⟨List α, [], queuePush, queueExtend, queuePop⟩

/-- The `dict.get` on the `explored` map, modelled as first-match lookup on
an association list. -/
def lookupA {σ : Type} [DecidableEq σ] : List (σ × Int) → σ → Option Int
  | [], _ => none
  | (k, v) :: rest, s => if k = s then some v else lookupA rest s

/-- The `explored[state] = cost`: replace the first binding, or append. -/
def setA {σ : Type} [DecidableEq σ] : List (σ × Int) → σ → Int → List (σ × Int)
  | [], s, c => [(s, c)]
  | (k, v) :: rest, s, c =>
      if k = s then (s, c) :: rest else (k, v) :: setA rest s c

/-- The body of `conditional_successor_manager`'s filtering loop: walk
the successors, forwarding a successor when its state is unseen (storing
its cost) or seen at a strictly greater cost (updating the entry);
return the final map together with the forwarded successors. -/
def filterSuccessors {σ ω : Type} [DecidableEq σ]
    (e : List (σ × Int)) : List (Node σ ω) → List (σ × Int) × List (Node σ ω)
  | [] => (e, [])
  | s :: rest =>
      match lookupA e s.state with
      | none =>
          let r := filterSuccessors (setA e s.state s.cost) rest
          (r.1, s :: r.2)
      | some c =>
          if s.cost < c then
            let r := filterSuccessors (setA e s.state s.cost) rest
            (r.1, s :: r.2)
          else
            filterSuccessors e rest

/-- One recorded iteration of the search loop: the popped node, whether
its state satisfied the goal, the running upper bound before and after
the iteration, whether the generator's `successors` function was invoked
on it, and the successors forwarded to the frontier. -/
structure StepInfo (σ ω : Type) where
  node : Node σ ω
  isSol : Bool
  boundBefore : Option Int
  boundAfter : Option Int
  expanded : Bool
  forwarded : List (Node σ ω)
deriving DecidableEq

/-- The `below_upper_bound = upper_bound is None or current.cost < upper_bound`. -/
def belowBound (upper : Option Int) (c : Int) : Bool :=
  match upper with
  | none => true
  | some u => decide (c < u)

/-- The flattened coroutine pipeline of `Method.search`, driven for at
most `fuel` pops of the frontier; returns the recorded trace. -/
def searchLoop {σ ω : Type} [DecidableEq σ]
    (gen : Generator σ ω) (prob : SearchProblem σ) (lower : Option Int)
    (F : Frontier (Node σ ω)) :
    Nat → F.Carrier → List (σ × Int) → Option Int → List (StepInfo σ ω)
  | 0, _, _, _ => []
  | fuel + 1, fr, e, upper =>
    match F.remove fr with
    | none => []
    | some (current, fr') =>
      let sol := prob.isSolution current.state
      let below := belowBound upper current.cost
      let upper' := if sol && below then some current.cost else upper
      let stop := sol &&
        (match lower with
         | none => false
         | some l => decide (current.cost ≤ l))
      if sol then
        let step : StepInfo σ ω := ⟨current, true, upper, upper', false, []⟩
        if stop then [step]
        else step :: searchLoop gen prob lower F fuel fr' e upper'
      else if below then
        if gen.graph then
          let r := filterSuccessors e (gen.successors current)
          let step : StepInfo σ ω := ⟨current, false, upper, upper', true, r.2⟩
          step :: searchLoop gen prob lower F fuel (F.extend fr' r.2) r.1 upper'
        else
          let ss := gen.successors current
          let step : StepInfo σ ω := ⟨current, false, upper, upper', true, ss⟩
          step :: searchLoop gen prob lower F fuel (F.extend fr' ss) e upper'
      else
        let step : StepInfo σ ω := ⟨current, false, upper, upper', false, []⟩
        step :: searchLoop gen prob lower F fuel fr' e upper'

/-- The `Method.search`: insert `Node(problem.start)` into the frontier and
run the pipeline; the `explored` dict of graph search starts empty. -/
def searchRun {σ ω : Type} [DecidableEq σ]
    (gen : Generator σ ω) (prob : SearchProblem σ)
    (F : Frontier (Node σ ω)) (lower upper : Option Int) (fuel : Nat) :
    List (StepInfo σ ω) :=
  searchLoop gen prob lower F fuel
    (F.insert F.init (Node.root prob.start 0)) [] upper

/-- The nodes yielded by `solution_manager`: every popped node whose
state satisfies the goal predicate, in trace order. -/
def yieldedSolutions {σ ω : Type} (trace : List (StepInfo σ ω)) : List (Node σ ω) :=
  (trace.filter (fun st => st.isSol)).map (fun st => st.node)

/-!
Python `problem.py`.  `solutions` wraps `method.search(self, lower_bound,
upper_bound)` in `islice(_, 0, nb_solutions)`; `solve` takes the first
element of `self.solutions(method, upper_bound)` — the `upper_bound`
argument lands *positionally* in the `lower_bound` parameter of
`solutions`; `optimize` drains the stream keeping the last solution.
An empty `Option` models raising `NoSolution`.
-/

/-- The `Problem.solutions(method, lower_bound, upper_bound, nb_solutions)`. -/
def solutionsModel {σ ω : Type} [DecidableEq σ]
    (gen : Generator σ ω) (prob : SearchProblem σ) (F : Frontier (Node σ ω))
    (lower upper : Option Int) (nb : Option Nat) (fuel : Nat) :
    List (Node σ ω) :=
  let ys := yieldedSolutions (searchRun gen prob F lower upper fuel)
  match nb with
  | none => ys
  | some k => ys.take k

/-- The `Problem.solve(method, upper_bound)` as implemented:
`next(self.solutions(method, upper_bound))`, the positional argument
filling `solutions`' `lower_bound` parameter; `none` models the
`NoSolution` raise on an exhausted stream. -/
def solveModel {σ ω : Type} [DecidableEq σ]
    (gen : Generator σ ω) (prob : SearchProblem σ) (F : Frontier (Node σ ω))
    (upper : Option Int) (fuel : Nat) : Option (Node σ ω) :=
  (solutionsModel gen prob F upper none none fuel).head?

/-- The behavior of `solve` as the specification describes it: the first element of the
solutions stream searched with `upper_bound = u` forwarded as the upper
bound. -/
def solveClaimed {σ ω : Type} [DecidableEq σ]
    (gen : Generator σ ω) (prob : SearchProblem σ) (F : Frontier (Node σ ω))
    (upper : Option Int) (fuel : Nat) : Option (Node σ ω) :=
  (solutionsModel gen prob F none upper none fuel).head?

/-- The `Problem.optimize(method, lower_bound, upper_bound)`: fold over the
stream keeping the last yielded solution (`best_solution = solution`);
`none` models the `NoSolution` raise. -/
def optimizeModel {σ ω : Type} [DecidableEq σ]
    (gen : Generator σ ω) (prob : SearchProblem σ) (F : Frontier (Node σ ω))
    (lower upper : Option Int) (fuel : Nat) : Option (Node σ ω) :=
  (solutionsModel gen prob F lower upper none fuel).foldl
    (fun _ s => some s) none

/-!
Concrete instances used by counterexamples and witnesses.
-/

/-- A goal predicate recognising state `1`. -/
def exProb : SearchProblem Nat := ⟨0, fun s => s = 1⟩

/-- Tree generator: the root state `0` has one successor, the goal state
`1`, reached by an operation of cost `10`. -/
def exGen1 : Generator Nat Unit :=
  ⟨false, fun n => if n.state = 0 then [Node.child 1 () (n.cost + 10) n] else []⟩

/-- Tree generator: `0 —(10)→ 2 —(+1)→ 1`, the goal at cumulative cost `11`. -/
def exGen2 : Generator Nat Unit :=
  ⟨false, fun n =>
    if n.state = 0 then [Node.child 2 () (n.cost + 10) n]
    else if n.state = 2 then [Node.child 1 () (n.cost + 1) n]
    else []⟩

/-- Graph generator: a diamond `0 → 1, 2` and `1 → 3` (cost 5),
`2 → 3` (cost 3), so state `3` is seen twice with decreasing costs. -/
def exGen3 : Generator Nat Unit :=
  ⟨true, fun n =>
    if n.state = 0 then [Node.child 1 () (n.cost + 1) n, Node.child 2 () (n.cost + 2) n]
    else if n.state = 1 then [Node.child 3 () (n.cost + 4) n]
    else if n.state = 2 then [Node.child 3 () (n.cost + 1) n]
    else []⟩

/-- Graph generator whose root successor is the start state itself:
`0 —(1)→ 0`. -/
def exGen4 : Generator Nat Unit :=
  ⟨true, fun n => if n.state = 0 then [Node.child 0 () (n.cost + 1) n] else []⟩

/-!
Claim theorems.
-/

/-- C7: for every `Path` constructed from a node, the state sequence has
exactly one more element than the operation sequence; iterating the path
(`zip(states, operations)`) yields the `(state, operation)` pairs in
forward order from the root — the paired states are exactly all states
but the last — and the terminal state, which is the node's own state, is
never paired with an operation. -/
theorem path_states_operations_spec {σ ω : Type} (n : Node σ ω) :
    n.pathStates.length = n.pathOperations.length + 1 ∧
    n.pathPairs.map Prod.fst = n.pathStates.dropLast ∧
    n.pathPairs.map Prod.snd = n.pathOperations ∧
    n.pathStates.head? = some n.rootState ∧
    n.pathStates.getLast? = some n.state := by
  refine ⟨pathStates_length_eq n, ?_, ?_, pathStates_head n, pathStates_getLast n⟩
  · exact zip_map_fst_of_length_succ n.pathOperations n.pathStates (pathStates_length_eq n)
  · exact zip_map_snd_of_length_succ n.pathOperations n.pathStates (pathStates_length_eq n)

/-- C6 counterexample: calling the built-in random evaluator's `evaluate`
on a concrete node does not produce a positive integer (it produces the
`NotImplementedError` class object inherited from the abstract
`Evaluator.evaluate`). -/
theorem randomEvaluator_counterexample :
    EvalValue.isPositiveInt
      (RandomEvaluator.evaluate (Node.root (0 : Nat) 0 : Node Nat Unit)) = false := by
  rfl

/-- C6 amended: `RandomEvaluator` defines no `evaluate` of its own, so
calling its `evaluate` on any node returns the `NotImplementedError`
class object of the inherited abstract `Evaluator.evaluate` — never an
integer; the class randomizes ordering only through its `order`
classmethod, which shuffles a node list in place. -/
theorem randomEvaluator_evaluate_not_integer {α : Type} (node : α) :
    RandomEvaluator.evaluate node = EvalValue.notImplementedErrorClass ∧
    EvalValue.isPositiveInt (RandomEvaluator.evaluate node) = false := by
  exact ⟨rfl, rfl⟩

/-- C4: the sorted stack used by `DepthFirst` with an evaluator (named
`OrderedStack` at its use site, defined as `PrioritizedStack`): `extend`
sorts the incoming batch ascending by the evaluator and reverse-pushes
it, so afterwards `remove` pops a batch element with the smallest
evaluation first. -/
theorem prioritizedStack_extend_pop_min {α : Type} (ev : α → Int) (c batch : List α)
    (h : batch ≠ []) :
    ∃ b, stackPop (prioritizedStackExtend ev c batch)
        = some (b, (prioritizedStackExtend ev c batch).dropLast) ∧
      b ∈ batch ∧ ∀ x ∈ batch, ev b ≤ ev x := by
  have hperm := List.perm_insertionSort (evLe ev) batch
  have hsorted := List.sorted_insertionSort (evLe ev) batch
  have hne : List.insertionSort (evLe ev) batch ≠ [] := by
    intro hnil
    have h2 := hperm.symm
    rw [hnil] at h2
    exact h h2.eq_nil
  obtain ⟨b, t, hbt⟩ := List.exists_cons_of_ne_nil hne
  refine ⟨b, ?_, ?_, ?_⟩
  · have hrev : (List.insertionSort (evLe ev) batch).reverse ≠ [] := by
      simpa using hne
    unfold stackPop prioritizedStackExtend stackExtend
    rw [List.getLast?_append_of_ne_nil _ hrev, List.getLast?_reverse, hbt]
    rfl
  · exact hperm.mem_iff.mp (hbt ▸ List.mem_cons_self b t)
  · intro x hx
    have hx' : x ∈ List.insertionSort (evLe ev) batch := hperm.mem_iff.mpr hx
    rw [hbt] at hx' hsorted
    rcases List.mem_cons.mp hx' with hxb | hxt
    · exact le_of_eq (congrArg ev hxb.symm)
    · exact List.rel_of_sorted_cons hsorted x hxt

/-- C4 witness: on the batch `[3, 1, 2]` pushed onto the stack `[9]`,
the first `remove` after `extend` pops `1`, the batch element with the
smallest evaluation. -/
theorem prioritizedStack_extend_pop_min_witness :
    ([3, 1, 2] : List Int) ≠ [] ∧
    ∃ b, stackPop (prioritizedStackExtend (fun x : Int => x) [9] [3, 1, 2])
        = some (b, (prioritizedStackExtend (fun x : Int => x) [9] [3, 1, 2]).dropLast) ∧
      b ∈ ([3, 1, 2] : List Int) ∧ ∀ x ∈ ([3, 1, 2] : List Int), b ≤ x :=
  ⟨by decide, prioritizedStack_extend_pop_min (fun x : Int => x) [9] [3, 1, 2] (by decide)⟩

/-- The `best_solution = solution` folded over a stream returns its last
element (or the fold's start on an empty stream). -/
theorem foldl_keep_last {α : Type} :
    ∀ (l : List α) (a : Option α),
      l.foldl (fun _ s => some s) a =
        match l.getLast? with
        | none => a
        | some x => some x := by
  intro l
  induction l with
  | nil => intro a; rfl
  | cons x xs ih =>
    intro a
    rw [List.foldl_cons, ih (some x)]
    cases hxs : xs.getLast? with
    | none =>
      have : xs = [] := List.getLast?_eq_none_iff.mp hxs
      subst this
      rfl
    | some y =>
      match xs, hxs with
      | z :: zs, hxs => simp [List.getLast?_cons_cons, hxs]

/-- C8: when the lazily searched solutions stream is exhausted without a
solution, `solve` and `optimize` raise `NoSolution` (modelled as
`none`); when at least one solution is yielded, `optimize` returns the
last solution of the stream. -/
theorem solve_optimize_noSolution_spec {σ ω : Type} [DecidableEq σ]
    (gen : Generator σ ω) (prob : SearchProblem σ) (F : Frontier (Node σ ω))
    (lower upper : Option Int) (fuel : Nat) :
    optimizeModel gen prob F lower upper fuel =
      (solutionsModel gen prob F lower upper none fuel).getLast? ∧
    (optimizeModel gen prob F lower upper fuel = none ↔
      solutionsModel gen prob F lower upper none fuel = []) ∧
    (solveModel gen prob F upper fuel = none ↔
      solutionsModel gen prob F upper none none fuel = []) := by
  have h1 : optimizeModel gen prob F lower upper fuel =
      (solutionsModel gen prob F lower upper none fuel).getLast? := by
    unfold optimizeModel
    rw [foldl_keep_last]
    cases (solutionsModel gen prob F lower upper none fuel).getLast? <;> rfl
  refine ⟨h1, ?_, ?_⟩
  · rw [h1]
    exact List.getLast?_eq_none_iff
  · unfold solveModel
    exact List.head?_eq_none_iff

/-- C1: evaluating `Problem.solve` at a concrete problem exhibits the
bound mix-up: `solve(method, upper_bound=5)` passes `5` positionally
into the `lower_bound` parameter of `solutions`, so the search runs with
no upper bound and returns the cost-11 solution, whereas the stream
searched with `upper_bound = 5` (the behavior the claim describes) is
empty because every path to the goal passes a node of cost `10 ≥ 5`
whose expansion is pruned. -/
theorem solve_forwards_upper_as_lower :
    solveModel exGen2 exProb (stackFrontier (Node Nat Unit)) (some 5) 10
      = some (Node.child 1 () 11 (Node.child 2 () 10 (Node.root 0 0))) ∧
    solveClaimed exGen2 exProb (stackFrontier (Node Nat Unit)) (some 5) 10 = none := by
  constructor
  · rfl
  · rfl

/-- The `min` on the optional upper bound, `None` acting as `+∞`. -/
def optMin : Option Int → Int → Option Int
  | none, c => some c
  | some u, c => some (min u c)

/-- Every step of the pipeline records: the goal test of the popped
node, the expansion decision `not solution and below_upper_bound` that
`solution_manager` sends, and the bound update applied after a yield. -/
theorem searchLoop_shape {σ ω : Type} [DecidableEq σ]
    (gen : Generator σ ω) (prob : SearchProblem σ) (lower : Option Int)
    (F : Frontier (Node σ ω)) :
    ∀ (fuel : Nat) (fr : F.Carrier) (e : List (σ × Int)) (upper : Option Int),
      ∀ st ∈ searchLoop gen prob lower F fuel fr e upper,
        st.isSol = prob.isSolution st.node.state ∧
        st.expanded = (!st.isSol && belowBound st.boundBefore st.node.cost) ∧
        st.boundAfter =
          (if st.isSol && belowBound st.boundBefore st.node.cost
           then some st.node.cost else st.boundBefore) := by
  intro fuel
  induction fuel with
  | zero =>
    intro fr e upper st hst
    simp [searchLoop] at hst
  | succ n ih =>
    intro fr e upper st hst
    rw [searchLoop] at hst
    rcases hrem : F.remove fr with _ | ⟨current, fr'⟩ <;> rw [hrem] at hst
    · simp at hst
    · simp only at hst
      split at hst
      · next hsol =>
        split at hst
        · next =>
          rcases List.mem_cons.mp hst with hst | hst
          · subst hst
            simp [hsol]
          · simp at hst
        · next =>
          rcases List.mem_cons.mp hst with hst | hst
          · subst hst
            simp [hsol]
          · exact ih _ _ _ st hst
      · next hsol =>
        have hsol' : prob.isSolution current.state = false := by
          simpa using hsol
        split at hst
        · next hbelow =>
          split at hst
          · next =>
            rcases List.mem_cons.mp hst with hst | hst
            · subst hst
              simp [hsol', hbelow]
            · exact ih _ _ _ st hst
          · next =>
            rcases List.mem_cons.mp hst with hst | hst
            · subst hst
              simp [hsol', hbelow]
            · exact ih _ _ _ st hst
        · next hbelow =>
          rcases List.mem_cons.mp hst with hst | hst
          · subst hst
            simp [hsol']
            simpa using hbelow
          · exact ih _ _ _ st hst

/-- The trace links the running upper bound: the first step starts from
the bound the search was given, and each later step starts from its
predecessor's updated bound. -/
theorem searchLoop_bound_chain {σ ω : Type} [DecidableEq σ]
    (gen : Generator σ ω) (prob : SearchProblem σ) (lower : Option Int)
    (F : Frontier (Node σ ω)) :
    ∀ (fuel : Nat) (fr : F.Carrier) (e : List (σ × Int)) (upper : Option Int),
      (∀ st ∈ (searchLoop gen prob lower F fuel fr e upper).head?,
        st.boundBefore = upper) ∧
      List.Chain' (fun a b => b.boundBefore = a.boundAfter)
        (searchLoop gen prob lower F fuel fr e upper) := by
  intro fuel
  induction fuel with
  | zero =>
    intro fr e upper
    simp [searchLoop]
  | succ n ih =>
    intro fr e upper
    rw [searchLoop]
    rcases hrem : F.remove fr with _ | ⟨current, fr'⟩
    · simp
    · simp only
      split
      · next =>
        split
        · next => simp
        · next =>
          refine ⟨by simp, ?_⟩
          rw [List.chain'_cons']
          exact ⟨fun b hb => by simpa using (ih fr' e _).1 b hb, (ih fr' e _).2⟩
      · next =>
        split
        · next =>
          split
          · next =>
            refine ⟨by simp, ?_⟩
            rw [List.chain'_cons']
            exact ⟨fun b hb => by simpa using (ih _ _ _).1 b hb, (ih _ _ _).2⟩
          · next =>
            refine ⟨by simp, ?_⟩
            rw [List.chain'_cons']
            exact ⟨fun b hb => by simpa using (ih _ _ _).1 b hb, (ih _ _ _).2⟩
        · next =>
          refine ⟨by simp, ?_⟩
          rw [List.chain'_cons']
          exact ⟨fun b hb => by simpa using (ih _ _ _).1 b hb, (ih _ _ _).2⟩

/-- C9: in every search run (tree or graph pipeline), a popped node
whose state satisfies the goal predicate is never expanded — the
expansion flag that `solution_manager` sends (and with it the only call
site of the generator's `successors`) is `false` on such nodes,
whatever the node's cost and the current bound. -/
theorem solution_node_never_expanded {σ ω : Type} [DecidableEq σ]
    (gen : Generator σ ω) (prob : SearchProblem σ) (F : Frontier (Node σ ω))
    (lower upper : Option Int) (fuel : Nat) :
    ∀ st ∈ searchRun gen prob F lower upper fuel,
      prob.isSolution st.node.state = true → st.expanded = false := by
  intro st hst hsol
  obtain ⟨h1, h2, _⟩ := searchLoop_shape gen prob lower F fuel _ _ _ st hst
  rw [h2, h1, hsol]
  rfl

/-- C9 witness: in the concrete run `exGen1`/`exProb` the goal node of
cost 10 is popped (and yielded) but not expanded. -/
theorem solution_node_never_expanded_witness :
    ((⟨Node.child 1 () 10 (Node.root 0 0), true, some 5, some 5, false, []⟩ : StepInfo Nat Unit)
        ∈ searchRun exGen1 exProb (stackFrontier (Node Nat Unit)) none (some 5) 10 ∧
      exProb.isSolution
        (⟨Node.child 1 () 10 (Node.root 0 0), true, some 5, some 5, false, []⟩ :
          StepInfo Nat Unit).node.state = true) ∧
    (⟨Node.child 1 () 10 (Node.root 0 0), true, some 5, some 5, false, []⟩ :
      StepInfo Nat Unit).expanded = false :=
  ⟨⟨by decide, by decide⟩,
    solution_node_never_expanded exGen1 exProb (stackFrontier (Node Nat Unit))
      none (some 5) 10 _ (by decide) (by decide)⟩

/-- C2 counterexample: searching `exGen1`/`exProb` with
`upper_bound = 5` yields the solution node of cost `10`, so a solution
of cost strictly greater than the upper bound *is* yielded (the bound
only prunes expansion). -/
theorem upper_bound_yield_counterexample :
    yieldedSolutions (searchRun exGen1 exProb (stackFrontier (Node Nat Unit)) none (some 5) 10)
      = [Node.child 1 () 10 (Node.root 0 0)] ∧
    (Node.child 1 () 10 (Node.root 0 0) : Node Nat Unit).cost = 10 ∧
    ¬ ((10 : Int) ≤ 5) := by
  refine ⟨by rfl, by rfl, by decide⟩

/-- C2 amended: with `upper_bound = u`, a node is expanded only when its
cost is strictly below the running upper bound, but a popped solution
node is yielded whatever its cost (a solution of cost `> u` can be
yielded); after a solution of cost `c` is yielded while the running
bound is `b`, the running bound becomes `min(b, c)` (the run starts at
`b = u`, each step continuing from its predecessor's updated bound). -/
theorem upper_bound_tightening {σ ω : Type} [DecidableEq σ]
    (gen : Generator σ ω) (prob : SearchProblem σ) (F : Frontier (Node σ ω))
    (lower upper : Option Int) (fuel : Nat) :
    (∀ st ∈ searchRun gen prob F lower upper fuel,
      (st.isSol = true → st.boundAfter = optMin st.boundBefore st.node.cost) ∧
      (st.expanded = true → belowBound st.boundBefore st.node.cost = true)) ∧
    (∀ st ∈ (searchRun gen prob F lower upper fuel).head?, st.boundBefore = upper) ∧
    List.Chain' (fun a b => b.boundBefore = a.boundAfter)
      (searchRun gen prob F lower upper fuel) := by
  refine ⟨?_, (searchLoop_bound_chain gen prob lower F fuel _ _ _).1,
    (searchLoop_bound_chain gen prob lower F fuel _ _ _).2⟩
  intro st hst
  obtain ⟨h1, h2, h3⟩ := searchLoop_shape gen prob lower F fuel _ _ _ st hst
  constructor
  · intro hsol
    rw [h3, hsol]
    cases hb : st.boundBefore with
    | none => simp [belowBound, optMin]
    | some u =>
      by_cases hcu : st.node.cost < u
      · simp [belowBound, optMin, hcu, min_eq_right (le_of_lt hcu)]
      · have hle : u ≤ st.node.cost := le_of_not_lt hcu
        simp [belowBound, optMin, hcu, min_eq_left hle]
  · intro hexp
    rw [h2] at hexp
    exact (Bool.and_eq_true_iff.mp hexp).2

/-- C2 witness: in the concrete run `exGen1`/`exProb` with
`upper_bound = 5`, the yielded cost-10 solution leaves the running bound
at `min(5, 10) = 5`, and the first step starts from bound `5`. -/
theorem upper_bound_tightening_witness :
    ((⟨Node.child 1 () 10 (Node.root 0 0), true, some 5, some 5, false, []⟩ : StepInfo Nat Unit)
        ∈ searchRun exGen1 exProb (stackFrontier (Node Nat Unit)) none (some 5) 10 ∧
      (⟨Node.child 1 () 10 (Node.root 0 0), true, some 5, some 5, false, []⟩ :
        StepInfo Nat Unit).isSol = true) ∧
    (⟨Node.child 1 () 10 (Node.root 0 0), true, some 5, some 5, false, []⟩ :
        StepInfo Nat Unit).boundAfter =
      optMin (⟨Node.child 1 () 10 (Node.root 0 0), true, some 5, some 5, false, []⟩ :
        StepInfo Nat Unit).boundBefore
        (⟨Node.child 1 () 10 (Node.root 0 0), true, some 5, some 5, false, []⟩ :
          StepInfo Nat Unit).node.cost :=
  ⟨⟨by decide, by decide⟩,
    ((upper_bound_tightening exGen1 exProb (stackFrontier (Node Nat Unit))
        none (some 5) 10).1 _ (by decide)).1 (by decide)⟩

/-- C10: the `explored` dict of graph search starts empty and the root
state is never entered into it, so the first expansion filters the root
successors against the empty map; in particular a successor whose state
equals the start state heads the forwarded batch (carrying its own
successor cost) instead of being deduplicated against the root. -/
theorem graph_seen_map_starts_empty {σ ω : Type} [DecidableEq σ]
    (gen : Generator σ ω) (prob : SearchProblem σ) (F : Frontier (Node σ ω))
    (lower upper : Option Int) (fuel : Nat) (fr' : F.Carrier)
    (s : Node σ ω) (rest : List (Node σ ω))
    (hg : gen.graph = true)
    (hrem : F.remove (F.insert F.init (Node.root prob.start 0)) =
      some (Node.root prob.start 0, fr'))
    (hsol : prob.isSolution prob.start = false)
    (hb : belowBound upper 0 = true)
    (hsucc : gen.successors (Node.root prob.start 0) = s :: rest)
    (hstate : s.state = prob.start) :
    (searchRun gen prob F lower upper (fuel + 1)).head? =
      some ⟨Node.root prob.start 0, false, upper, upper, true,
            (filterSuccessors ([] : List (σ × Int)) (s :: rest)).2⟩ ∧
    (filterSuccessors ([] : List (σ × Int)) (s :: rest)).2.head? = some s := by
  constructor
  · rw [searchRun, searchLoop, hrem]
    simp only [Node.state, Node.cost, hsol, hb, hg, hsucc, Bool.false_and,
      Bool.and_false, if_false, if_true, Bool.false_eq_true, if_pos rfl]
    simp
  · simp [filterSuccessors, lookupA]

/-- C10 witness: with the graph generator `exGen4` (whose root successor
is the start state `0` again, at cost `1`) and a stack frontier, the
first step forwards that successor. -/
theorem graph_seen_map_starts_empty_witness :
    (exGen4.graph = true ∧
      (stackFrontier (Node Nat Unit)).remove
          ((stackFrontier (Node Nat Unit)).insert (stackFrontier (Node Nat Unit)).init
            (Node.root exProb.start 0)) =
        some (Node.root exProb.start 0, []) ∧
      exProb.isSolution exProb.start = false ∧
      belowBound none 0 = true ∧
      exGen4.successors (Node.root exProb.start 0) =
        Node.child 0 () 1 (Node.root 0 0) :: [] ∧
      (Node.child 0 () 1 (Node.root 0 0) : Node Nat Unit).state = exProb.start) ∧
    ((searchRun exGen4 exProb (stackFrontier (Node Nat Unit)) none none (9 + 1)).head? =
      some ⟨Node.root exProb.start 0, false, none, none, true,
            (filterSuccessors ([] : List (Nat × Int))
              (Node.child 0 () 1 (Node.root 0 0) :: [])).2⟩ ∧
    (filterSuccessors ([] : List (Nat × Int))
        (Node.child 0 () 1 (Node.root 0 0) :: [])).2.head? =
      some (Node.child 0 () 1 (Node.root 0 0))) :=
  ⟨⟨by decide, by rfl, by decide, by decide, by decide, by decide⟩,
    graph_seen_map_starts_empty exGen4 exProb (stackFrontier (Node Nat Unit))
      none none 9 [] (Node.child 0 () 1 (Node.root 0 0)) []
      (by decide) (by rfl) (by decide) (by decide) (by decide) (by decide)⟩

/-!
Graph deduplication (C3): across one graph search, the `explored` map
always bounds from below the costs at which each state was previously
forwarded, so a state is re-forwarded only at a strictly smaller cost.
-/

/-- Consecutive forwardings of the same state strictly decrease in cost. -/
def dedupStrict {σ ω : Type} (hist : List (Node σ ω)) : Prop :=
  List.Pairwise (fun a b => a.state = b.state → b.cost < a.cost) hist

/-- The `explored` map is coherent with the history of forwarded nodes:
a stored cost is a lower bound on every cost at which the state was
forwarded, and an absent state was never forwarded. -/
def MapHist {σ ω : Type} [DecidableEq σ]
    (e : List (σ × Int)) (hist : List (Node σ ω)) : Prop :=
  ∀ S : σ,
    (∀ c, lookupA e S = some c → ∀ a ∈ hist, a.state = S → c ≤ a.cost) ∧
    (lookupA e S = none → ∀ a ∈ hist, a.state ≠ S)

/-- All successors forwarded to the frontier across a trace, in order. -/
def forwardedAll {σ ω : Type} (trace : List (StepInfo σ ω)) : List (Node σ ω) :=
  trace.foldr (fun st acc => st.forwarded ++ acc) []

theorem forwardedAll_nil {σ ω : Type} : forwardedAll ([] : List (StepInfo σ ω)) = [] := rfl

theorem forwardedAll_cons {σ ω : Type} (st : StepInfo σ ω) (l : List (StepInfo σ ω)) :
    forwardedAll (st :: l) = st.forwarded ++ forwardedAll l := rfl

theorem lookupA_setA_self {σ : Type} [DecidableEq σ] :
    ∀ (e : List (σ × Int)) (k : σ) (v : Int), lookupA (setA e k v) k = some v := by
  intro e
  induction e with
  | nil => intro k v; simp [setA, lookupA]
  | cons p rest ih =>
    intro k v
    by_cases hk : p.1 = k
    · simp [setA, hk, lookupA]
    · simp [setA, hk, lookupA, ih]

theorem lookupA_setA_ne {σ : Type} [DecidableEq σ] :
    ∀ (e : List (σ × Int)) (k : σ) (v : Int) (k' : σ), k' ≠ k →
      lookupA (setA e k v) k' = lookupA e k' := by
  intro e
  induction e with
  | nil =>
    intro k v k' hne
    simp [setA, lookupA, Ne.symm hne]
  | cons p rest ih =>
    intro k v k' hne
    by_cases hk : p.1 = k
    · simp [setA, hk, lookupA, Ne.symm hne]
    · by_cases hk' : p.1 = k'
      · simp [setA, hk, lookupA, hk', hne]
      · simp [setA, hk, lookupA, hk', ih k v k' hne]

/-- Forwarding one admissible successor extends both invariants. -/
theorem mapHist_forward {σ ω : Type} [DecidableEq σ]
    {e : List (σ × Int)} {hist : List (Node σ ω)} (s : Node σ ω)
    (hmh : MapHist e hist)
    (hdec : lookupA e s.state = none ∨
      ∃ c, lookupA e s.state = some c ∧ s.cost < c) :
    MapHist (setA e s.state s.cost) (hist ++ [s]) ∧
    (∀ a ∈ hist, a.state = s.state → s.cost < a.cost) := by
  have hprev : ∀ a ∈ hist, a.state = s.state → s.cost < a.cost := by
    intro a ha hstate
    rcases hdec with hnone | ⟨c, hsome, hlt⟩
    · exact absurd hstate ((hmh s.state).2 hnone a ha)
    · exact lt_of_lt_of_le hlt ((hmh s.state).1 c hsome a ha hstate)
  refine ⟨?_, hprev⟩
  intro S
  by_cases hS : S = s.state
  · subst hS
    constructor
    · intro c hc a ha hstate
      rw [lookupA_setA_self] at hc
      cases hc
      rcases List.mem_append.mp ha with ha | ha
      · exact le_of_lt (hprev a ha hstate)
      · rcases List.mem_singleton.mp ha with rfl
        exact le_refl _
    · intro hc
      rw [lookupA_setA_self] at hc
      cases hc
  · constructor
    · intro c hc a ha hstate
      rw [lookupA_setA_ne e s.state s.cost S hS] at hc
      rcases List.mem_append.mp ha with ha | ha
      · exact (hmh S).1 c hc a ha hstate
      · rcases List.mem_singleton.mp ha with rfl
        exact absurd hstate.symm hS
    · intro hc a ha
      rw [lookupA_setA_ne e s.state s.cost S hS] at hc
      rcases List.mem_append.mp ha with ha | ha
      · exact (hmh S).2 hc a ha
      · rcases List.mem_singleton.mp ha with rfl
        intro h
        exact hS h.symm

/-- The filtering loop of `conditional_successor_manager` preserves the
map/history coherence and the strict-decrease property. -/
theorem filterSuccessors_inv {σ ω : Type} [DecidableEq σ] :
    ∀ (ss : List (Node σ ω)) (e : List (σ × Int)) (hist : List (Node σ ω)),
      MapHist e hist → dedupStrict hist →
      MapHist (filterSuccessors e ss).1 (hist ++ (filterSuccessors e ss).2) ∧
      dedupStrict (hist ++ (filterSuccessors e ss).2) := by
  intro ss
  induction ss with
  | nil =>
    intro e hist hmh hds
    simpa [filterSuccessors] using ⟨hmh, hds⟩
  | cons s rest ih =>
    intro e hist hmh hds
    have step :
        ∀ (hdec : lookupA e s.state = none ∨
            ∃ c, lookupA e s.state = some c ∧ s.cost < c),
          MapHist (filterSuccessors (setA e s.state s.cost) rest).1
            (hist ++ (s :: (filterSuccessors (setA e s.state s.cost) rest).2)) ∧
          dedupStrict (hist ++ (s :: (filterSuccessors (setA e s.state s.cost) rest).2)) := by
      intro hdec
      obtain ⟨hmh', hprev⟩ := mapHist_forward s hmh hdec
      have hds' : dedupStrict (hist ++ [s]) := by
        rw [dedupStrict, List.pairwise_append]
        refine ⟨hds, List.pairwise_singleton _ _, ?_⟩
        intro a ha b hb
        rcases List.mem_singleton.mp hb with rfl
        intro hstate
        exact hprev a ha hstate
      have := ih (setA e s.state s.cost) (hist ++ [s]) hmh' hds'
      rwa [List.append_assoc, List.singleton_append] at this
    rcases hlook : lookupA e s.state with _ | c
    · have heq : filterSuccessors e (s :: rest) =
          ((filterSuccessors (setA e s.state s.cost) rest).1,
           s :: (filterSuccessors (setA e s.state s.cost) rest).2) := by
        simp [filterSuccessors, hlook]
      rw [heq]
      exact step (Or.inl hlook)
    · by_cases hlt : s.cost < c
      · have heq : filterSuccessors e (s :: rest) =
            ((filterSuccessors (setA e s.state s.cost) rest).1,
             s :: (filterSuccessors (setA e s.state s.cost) rest).2) := by
          simp [filterSuccessors, hlook, hlt]
        rw [heq]
        exact step (Or.inr ⟨c, hlook, hlt⟩)
      · have heq : filterSuccessors e (s :: rest) = filterSuccessors e rest := by
          simp [filterSuccessors, hlook, hlt]
        rw [heq]
        exact ih e hist hmh hds

/-- Graph-search trace invariant: starting from a coherent map/history
pair, the whole run only ever re-forwards a state at strictly smaller
cost. -/
theorem searchLoop_dedup {σ ω : Type} [DecidableEq σ]
    (gen : Generator σ ω) (prob : SearchProblem σ) (lower : Option Int)
    (F : Frontier (Node σ ω)) (hg : gen.graph = true) :
    ∀ (fuel : Nat) (fr : F.Carrier) (e : List (σ × Int)) (upper : Option Int)
      (hist : List (Node σ ω)), MapHist e hist → dedupStrict hist →
      dedupStrict (hist ++ forwardedAll (searchLoop gen prob lower F fuel fr e upper)) := by
  intro fuel
  induction fuel with
  | zero =>
    intro fr e upper hist hmh hds
    simpa [searchLoop, forwardedAll_nil] using hds
  | succ n ih =>
    intro fr e upper hist hmh hds
    rw [searchLoop]
    rcases hrem : F.remove fr with _ | ⟨current, fr'⟩
    · simpa [forwardedAll_nil] using hds
    · simp only
      split
      · next =>
        split
        · next =>
          simpa [forwardedAll_cons, forwardedAll_nil] using hds
        · next =>
          rw [forwardedAll_cons]
          simpa using ih fr' e _ hist hmh hds
      · next =>
        by_cases hb : belowBound upper current.cost = true
        · rw [if_pos hb, forwardedAll_cons]
          obtain ⟨hmh', hds'⟩ :=
            filterSuccessors_inv (gen.successors current) e hist hmh hds
          have := ih (F.extend fr' (filterSuccessors e (gen.successors current)).2)
            (filterSuccessors e (gen.successors current)).1
            (if (prob.isSolution current.state && belowBound upper current.cost) = true
             then some current.cost else upper)
            (hist ++ (filterSuccessors e (gen.successors current)).2) hmh' hds'
          simpa [List.append_assoc] using this
        · rw [if_neg hb, forwardedAll_cons]
          simpa using ih fr' e _ hist hmh hds

/-- C3: in graph search a successor with state `S` and cumulative cost
`c` is forwarded to the frontier iff the seen map has no entry for `S`
(then `S` is stored at cost `c`) or stores a cost strictly greater than
`c` (then the entry is updated to `c`); in all other cases it is
dropped — consequently, across one search the same state is never
forwarded again at a cost greater than or equal to its previously seen
cost (forwardings of one state strictly decrease in cost). -/
theorem graph_dedup_spec {σ ω : Type} [DecidableEq σ]
    (gen : Generator σ ω) (prob : SearchProblem σ) (F : Frontier (Node σ ω))
    (lower upper : Option Int) (fuel : Nat) (hg : gen.graph = true) :
    (∀ (e : List (σ × Int)) (s : Node σ ω) (rest : List (Node σ ω)),
      (lookupA e s.state = none →
        filterSuccessors e (s :: rest) =
          ((filterSuccessors (setA e s.state s.cost) rest).1,
           s :: (filterSuccessors (setA e s.state s.cost) rest).2)) ∧
      (∀ c, lookupA e s.state = some c → s.cost < c →
        filterSuccessors e (s :: rest) =
          ((filterSuccessors (setA e s.state s.cost) rest).1,
           s :: (filterSuccessors (setA e s.state s.cost) rest).2)) ∧
      (∀ c, lookupA e s.state = some c → ¬ s.cost < c →
        filterSuccessors e (s :: rest) = filterSuccessors e rest)) ∧
    dedupStrict (forwardedAll (searchRun gen prob F lower upper fuel)) := by
  constructor
  · intro e s rest
    refine ⟨?_, ?_, ?_⟩
    · intro hnone
      simp [filterSuccessors, hnone]
    · intro c hsome hlt
      simp [filterSuccessors, hsome, hlt]
    · intro c hsome hlt
      simp [filterSuccessors, hsome, hlt]
  · have hmh : MapHist ([] : List (σ × Int)) ([] : List (Node σ ω)) := by
      intro S
      constructor
      · intro c hc
        simp [lookupA] at hc
      · intro _ a ha
        simp at ha
    have := searchLoop_dedup gen prob lower F hg fuel
      (F.insert F.init (Node.root prob.start 0)) [] upper [] hmh
      (List.Pairwise.nil)
    simpa [searchRun] using this

/-- C3 witness: in the concrete diamond graph `exGen3` (state `3`
reached at cost 5, then re-forwarded at the cheaper cost 3) the
forwarded stream satisfies the strict-decrease property. -/
theorem graph_dedup_spec_witness :
    exGen3.graph = true ∧
    ((∀ (e : List (Nat × Int)) (s : Node Nat Unit) (rest : List (Node Nat Unit)),
      (lookupA e s.state = none →
        filterSuccessors e (s :: rest) =
          ((filterSuccessors (setA e s.state s.cost) rest).1,
           s :: (filterSuccessors (setA e s.state s.cost) rest).2)) ∧
      (∀ c, lookupA e s.state = some c → s.cost < c →
        filterSuccessors e (s :: rest) =
          ((filterSuccessors (setA e s.state s.cost) rest).1,
           s :: (filterSuccessors (setA e s.state s.cost) rest).2)) ∧
      (∀ c, lookupA e s.state = some c → ¬ s.cost < c →
        filterSuccessors e (s :: rest) = filterSuccessors e rest)) ∧
    dedupStrict (forwardedAll
      (searchRun exGen3 exProb (queueFrontier (Node Nat Unit)) none none 10))) :=
  ⟨by decide,
    graph_dedup_spec exGen3 exProb (queueFrontier (Node Nat Unit)) none none 10 (by decide)⟩

/-!
The `PriorityQueue` correctness (C5).
-/

/-- Non-strict lexicographic comparison on `(priority, count)`. -/
def entryLe {α : Type} (m x : PQEntry α) : Prop :=
  m.prio < x.prio ∨ (m.prio = x.prio ∧ m.seq ≤ x.seq)

theorem entryLtB_false_iff {α : Type} (x m : PQEntry α) :
    entryLtB x m = false ↔ entryLe m x := by
  simp only [entryLtB, entryLe, Bool.or_eq_false_iff, Bool.and_eq_false_iff,
    decide_eq_false_iff_not, not_lt]
  omega

theorem entryLe_refl {α : Type} (a : PQEntry α) : entryLe a a :=
  Or.inr ⟨rfl, le_refl _⟩

theorem entryLe_trans {α : Type} {x y z : PQEntry α}
    (h1 : entryLe x y) (h2 : entryLe y z) : entryLe x z := by
  simp only [entryLe] at h1 h2 ⊢
  omega

theorem entryLe_of_ltB {α : Type} {b a : PQEntry α}
    (h : entryLtB b a = true) : entryLe b a := by
  simp only [entryLtB, Bool.or_eq_true, Bool.and_eq_true, decide_eq_true_eq] at h
  simp only [entryLe]
  omega

theorem selectMin_cons {α : Type} (a b : PQEntry α) (rest : List (PQEntry α)) :
    selectMin a (b :: rest) =
      if entryLtB b a then ((selectMin b rest).1, a :: (selectMin b rest).2)
      else ((selectMin a rest).1, b :: (selectMin a rest).2) := by
  rw [selectMin]

/-- The entry selected by `selectMin` is one of the entries, the others
are kept (as a multiset). -/
theorem selectMin_perm {α : Type} :
    ∀ (l : List (PQEntry α)) (a : PQEntry α),
      (a :: l).Perm ((selectMin a l).1 :: (selectMin a l).2) := by
  intro l
  induction l with
  | nil => intro a; simp [selectMin]
  | cons b rest ih =>
    intro a
    rw [selectMin_cons]
    by_cases hlt : entryLtB b a = true
    · rw [if_pos hlt]
      exact ((ih b).cons a).trans (List.Perm.swap _ _ _)
    · rw [if_neg hlt]
      exact ((List.Perm.swap b a rest).trans ((ih a).cons b)).trans
        (List.Perm.swap _ _ _)

/-- The entry selected by `selectMin` is lexicographically least. -/
theorem selectMin_min {α : Type} :
    ∀ (l : List (PQEntry α)) (a : PQEntry α),
      ∀ x ∈ a :: l, entryLe (selectMin a l).1 x := by
  intro l
  induction l with
  | nil =>
    intro a x hx
    rcases List.mem_singleton.mp hx with rfl
    simpa [selectMin] using entryLe_refl x
  | cons b rest ih =>
    intro a x hx
    rw [selectMin_cons]
    by_cases hlt : entryLtB b a = true
    · rw [if_pos hlt]
      rcases List.mem_cons.mp hx with rfl | hx
      · exact entryLe_trans (ih b b (List.mem_cons_self b rest)) (entryLe_of_ltB hlt)
      · exact ih b x hx
    · rw [if_neg hlt]
      have hba : entryLe a b :=
        (entryLtB_false_iff b a).mp (Bool.eq_false_iff.mpr hlt)
      rcases List.mem_cons.mp hx with hxa | hx
      · rw [hxa]
        exact ih a a (List.mem_cons_self a rest)
      · rcases List.mem_cons.mp hx with hxb | hx
        · rw [hxb]
          exact entryLe_trans (ih a a (List.mem_cons_self a rest)) hba
        · exact ih a x (List.mem_cons.mpr (Or.inr hx))

theorem enumFrom_mem {α : Type} :
    ∀ (ns : List α) (k : Nat), ∀ p ∈ enumFrom k ns, k ≤ p.1 ∧ p.1 < k + ns.length := by
  intro ns
  induction ns with
  | nil => intro k p hp; simp [enumFrom] at hp
  | cons x xs ih =>
    intro k p hp
    rcases List.mem_cons.mp hp with rfl | hp
    · simp
    · obtain ⟨h1, h2⟩ := ih (k + 1) p hp
      constructor
      · omega
      · simpa [List.length_cons] using by omega

theorem enumFrom_pairwise {α : Type} :
    ∀ (ns : List α) (k : Nat),
      List.Pairwise (fun p q => p.1 < q.1) (enumFrom k ns) := by
  intro ns
  induction ns with
  | nil => intro k; simp [enumFrom]
  | cons x xs ih =>
    intro k
    rw [enumFrom, List.pairwise_cons]
    refine ⟨?_, ih (k + 1)⟩
    intro p hp
    have := (enumFrom_mem xs (k + 1) p hp).1
    simpa using by omega

/-- The structural invariant of a reachable `PriorityQueue`: every
entry's sequence number is at most the running counter, its stored
priority is the evaluation of its node, and sequence numbers are
pairwise distinct (the counter increases strictly at every insertion). -/
def PQInv {α : Type} (ev : α → Int) (q : PQ α) : Prop :=
  (∀ a ∈ q.entries, a.seq ≤ q.count ∧ a.prio = ev a.node) ∧
  List.Pairwise (fun a b => a.seq ≠ b.seq) q.entries

theorem pqInv_empty {α : Type} (ev : α → Int) : PQInv ev (PQ.empty : PQ α) := by
  constructor
  · intro a ha
    simp [PQ.empty] at ha
  · simp [PQ.empty]

theorem pqInv_insert {α : Type} (ev : α → Int) (q : PQ α) (n : α)
    (h : PQInv ev q) : PQInv ev (q.insert ev n) := by
  obtain ⟨h1, h2⟩ := h
  constructor
  · intro a ha
    rcases List.mem_append.mp ha with ha | ha
    · obtain ⟨hs, hp⟩ := h1 a ha
      exact ⟨by simp [PQ.insert]; omega, hp⟩
    · rcases List.mem_singleton.mp ha with rfl
      simp [PQ.insert]
  · rw [PQ.insert, List.pairwise_append]
    refine ⟨h2, List.pairwise_singleton _ _, ?_⟩
    intro a ha b hb
    rcases List.mem_singleton.mp hb with rfl
    have := (h1 a ha).1
    simp only
    omega

theorem pqInv_extend {α : Type} (ev : α → Int) (q : PQ α) (ns : List α)
    (h : PQInv ev q) : PQInv ev (q.extend ev ns) := by
  obtain ⟨h1, h2⟩ := h
  constructor
  · intro a ha
    rcases List.mem_append.mp ha with ha | ha
    · obtain ⟨hs, hp⟩ := h1 a ha
      refine ⟨?_, hp⟩
      simp only [PQ.extend]
      omega
    · obtain ⟨p, hp, rfl⟩ := List.mem_map.mp ha
      obtain ⟨hk1, hk2⟩ := enumFrom_mem ns (q.count + 1) p hp
      simp only [PQ.extend]
      exact ⟨by omega, by simp⟩
  · rw [PQ.extend, List.pairwise_append]
    refine ⟨h2, ?_, ?_⟩
    · refine List.Pairwise.map _ ?_ (enumFrom_pairwise ns (q.count + 1))
      intro p r hpr
      simp only
      omega
    · intro a ha b hb
      obtain ⟨p, hp, rfl⟩ := List.mem_map.mp hb
      have ha' := (h1 a ha).1
      have hb' := (enumFrom_mem ns (q.count + 1) p hp).1
      simp only
      omega

theorem pqInv_remove {α : Type} (ev : α → Int) (q : PQ α) (m : PQEntry α)
    (q' : PQ α) (h : PQInv ev q) (hrem : q.remove = some (m, q')) :
    PQInv ev q' := by
  obtain ⟨h1, h2⟩ := h
  rcases hq : q.entries with _ | ⟨a, rest⟩
  · rw [PQ.remove, hq] at hrem
    simp at hrem
  · rw [PQ.remove, hq] at hrem
    simp only [Option.some_inj] at hrem
    cases hrem
    have hperm : (a :: rest).Perm ((selectMin a rest).1 :: (selectMin a rest).2) :=
      selectMin_perm rest a
    constructor
    · intro b hb
      have : b ∈ q.entries := by
        rw [hq]
        exact hperm.symm.subset (List.mem_cons.mpr (Or.inr hb))
      exact h1 b this
    · have hp : List.Pairwise (fun a b : PQEntry α => a.seq ≠ b.seq)
          ((selectMin a rest).1 :: (selectMin a rest).2) :=
        (List.Perm.pairwise_iff (fun h => h.symm) hperm).mp (hq ▸ h2)
      exact (List.pairwise_cons.mp hp).2

theorem pqInv_applyOps {α : Type} (ev : α → Int) (ops : List (PQOp α)) :
    PQInv ev (PQ.applyOps ev ops) := by
  suffices h : ∀ (ops : List (PQOp α)) (q : PQ α), PQInv ev q →
      PQInv ev (ops.foldl
        (fun q op =>
          match op with
          | PQOp.insert n => q.insert ev n
          | PQOp.extend ns => q.extend ev ns
          | PQOp.remove =>
              match q.remove with
              | none => q
              | some r => r.2) q) by
    exact h ops PQ.empty (pqInv_empty ev)
  intro ops
  induction ops with
  | nil => intro q hq; simpa using hq
  | cons op rest ih =>
    intro q hq
    rw [List.foldl_cons]
    rcases op with n | ns | _
    · exact ih _ (pqInv_insert ev q n hq)
    · exact ih _ (pqInv_extend ev q ns hq)
    · simp only
      rcases hrem : q.remove with _ | ⟨m, q'⟩
      · exact ih _ hq
      · exact ih _ (pqInv_remove ev q m q' hq hrem)

/-- C5: on any reachable `PriorityQueue`, every entry's insertion
sequence number was assigned from the strictly increasing counter (it
is at most the counter and pairwise distinct) and its stored priority is
the evaluation of its node; `remove` returns an entry of the container
minimizing the pair `(evaluate(node), insertion_sequence)` and leaves
the rest — so among nodes of equal evaluation, the earliest-inserted
(smallest sequence) is removed first (FIFO). -/
theorem priorityQueue_min_fifo {α : Type} (ev : α → Int) (ops : List (PQOp α)) :
    ((∀ a ∈ (PQ.applyOps ev ops).entries,
        a.seq ≤ (PQ.applyOps ev ops).count ∧ a.prio = ev a.node) ∧
      List.Pairwise (fun a b => a.seq ≠ b.seq) (PQ.applyOps ev ops).entries) ∧
    (∀ m q', (PQ.applyOps ev ops).remove = some (m, q') →
      m ∈ (PQ.applyOps ev ops).entries ∧
      (∀ x ∈ (PQ.applyOps ev ops).entries,
        m.prio ≤ x.prio ∧ (x.prio = m.prio → m.seq ≤ x.seq)) ∧
      (PQ.applyOps ev ops).entries.Perm (m :: q'.entries)) := by
  refine ⟨pqInv_applyOps ev ops, ?_⟩
  intro m q' hrem
  rcases hq : (PQ.applyOps ev ops).entries with _ | ⟨a, rest⟩
  · rw [PQ.remove, hq] at hrem
    simp at hrem
  · rw [PQ.remove, hq] at hrem
    simp only [Option.some_inj] at hrem
    cases hrem
    have hperm := selectMin_perm rest a
    refine ⟨?_, ?_, ?_⟩
    · exact hperm.symm.subset (List.mem_cons_self _ _)
    · intro x hx
      have := selectMin_min rest a x hx
      rcases this with h | ⟨h1, h2⟩
      · exact ⟨le_of_lt h, fun he => absurd h (by rw [he]; exact lt_irrefl _)⟩
      · exact ⟨le_of_eq h1, fun _ => h2⟩
    · exact hperm

/-- C5 witness: two nodes with equal evaluation inserted in order `7`
then `8`; `remove` returns the entry of node `7` — the one with the
smaller insertion sequence number. -/
theorem priorityQueue_min_fifo_witness :
    (PQ.applyOps (fun _ : Nat => (0 : Int)) [PQOp.insert 7, PQOp.insert 8]).remove =
        some (⟨0, 1, 7⟩, ⟨[⟨0, 2, 8⟩], 2⟩) ∧
    (⟨0, 1, 7⟩ : PQEntry Nat) ∈
        (PQ.applyOps (fun _ : Nat => (0 : Int)) [PQOp.insert 7, PQOp.insert 8]).entries ∧
    (∀ x ∈ (PQ.applyOps (fun _ : Nat => (0 : Int)) [PQOp.insert 7, PQOp.insert 8]).entries,
      (⟨0, 1, 7⟩ : PQEntry Nat).prio ≤ x.prio ∧
      (x.prio = (⟨0, 1, 7⟩ : PQEntry Nat).prio → (⟨0, 1, 7⟩ : PQEntry Nat).seq ≤ x.seq)) ∧
    (PQ.applyOps (fun _ : Nat => (0 : Int)) [PQOp.insert 7, PQOp.insert 8]).entries.Perm
      ((⟨0, 1, 7⟩ : PQEntry Nat) :: (⟨[⟨0, 2, 8⟩], 2⟩ : PQ Nat).entries) :=
  ⟨by decide,
    (priorityQueue_min_fifo (fun _ : Nat => (0 : Int)) [PQOp.insert 7, PQOp.insert 8]).2
      ⟨0, 1, 7⟩ ⟨[⟨0, 2, 8⟩], 2⟩ (by decide)⟩

end Searchtoy
